import Mathlib

/-!
Verification development for the AI Polyglot Friend store/dedup/scoring code
(`ai_friend_app.py`).  Python strings are modelled as `List Char`; Python
dicts with string keys are modelled as insertion-ordered association lists
whose keys are unique; optional / possibly-missing dict fields are modelled
as `Option`; Python float scores are modelled as rationals.
-/

set_option maxHeartbeats 1000000
set_option maxRecDepth 16000

namespace AiFriend

abbrev Str := List Char

/-- Characters treated as whitespace by Python's `str.strip` within the
Latin-1 range (`str.isspace` code points below 256). -/
def pyIsSpace (c : Char) : Bool :=
  ([9, 10, 11, 12, 13, 28, 29, 30, 31, 32, 133, 160] : List Nat).contains c.toNat

/-- Python `s.strip()`: remove leading and trailing whitespace. -/
def pyStrip (s : Str) : Str :=
  ((s.dropWhile pyIsSpace).reverse.dropWhile pyIsSpace).reverse

/-- Uppercase-to-lowercase table: the behaviour of Python `str.lower()` on
ASCII and on the Latin-1 supplement letters (`'À'`..`'Þ'` except `'×'`). -/
def lowerPairs : List (Char × Char) :=
  [('A','a'),('B','b'),('C','c'),('D','d'),('E','e'),('F','f'),('G','g'),
   ('H','h'),('I','i'),('J','j'),('K','k'),('L','l'),('M','m'),('N','n'),
   ('O','o'),('P','p'),('Q','q'),('R','r'),('S','s'),('T','t'),('U','u'),
   ('V','v'),('W','w'),('X','x'),('Y','y'),('Z','z'),
   ('À','à'),('Á','á'),('Â','â'),('Ã','ã'),('Ä','ä'),('Å','å'),('Æ','æ'),
   ('Ç','ç'),('È','è'),('É','é'),('Ê','ê'),('Ë','ë'),('Ì','ì'),('Í','í'),
   ('Î','î'),('Ï','ï'),('Ð','ð'),('Ñ','ñ'),('Ò','ò'),('Ó','ó'),('Ô','ô'),
   ('Õ','õ'),('Ö','ö'),('Ø','ø'),('Ù','ù'),('Ú','ú'),('Û','û'),('Ü','ü'),
   ('Ý','ý'),('Þ','þ')]

/-- Python `str.lower()` on a single character (Latin-1 fragment). -/
def pyLower (c : Char) : Char :=
  ((lowerPairs.find? (fun p => p.1 = c)).map (fun p => p.2)).getD c

/-- The fixed accent-folding table `repl` from `normalize` (source line 46). -/
def replPairs : List (Char × Char) :=
  [('á','a'),('é','e'),('í','i'),('ó','o'),('ú','u'),('ñ','n'),('ü','u')]

/-- Python `repl.get(ch, ch)`: fold one character through the accent table. -/
def foldChar (c : Char) : Char :=
  ((replPairs.find? (fun p => p.1 = c)).map (fun p => p.2)).getD c

/-- The source's `normalize` (lines 44-47): `if not s: return ""` then
`"".join(repl.get(ch,ch) for ch in s).lower().strip()` - accent folding
first, then lowercasing, then stripping. -/
def normalize (s : Str) : Str :=
  if s = [] then [] else pyStrip ((s.map foldChar).map pyLower)

/-- Python `x or d` for a possibly-missing string field `x` (`None` and the
empty string are falsy). -/
def orS : Option Str → Str → Str
  | some s, d => if s = [] then d else s
  | none, d => d

/-- Python slice `l[-n:]`: the last `n` elements (all of `l` when shorter). -/
def lastN (n : Nat) (l : List α) : List α :=
  l.drop (l.length - n)

example : pyStrip (" hola ").toList = ("hola").toList := by decide
example : normalize ("  HÓL A ").toList = ("hól a").toList := by decide
example : normalize ("cómo estás").toList = ("como estas").toList := by decide
example : normalize ("Á").toList = ("á").toList := by decide

/-!
Embedding of `difflib.SequenceMatcher(a=..., b=...).ratio()` (CPython
stdlib), as invoked by the source's `fuzzy_ratio` (lines 49-50): no `isjunk`
argument, `autojunk=True`.  Since `isjunk` is `None`, `bjunk` is empty and
the two junk-extension loops of `find_longest_match` never fire; they are
therefore omitted.  The `autojunk` popularity rule (only active when
`len(b) >= 200`) is kept.
-/

/-- Indices at which character `c` occurs in `b` (the `b2j` entry for `c`,
before the autojunk rule). -/
def posOf (c : Char) (b : Str) : List Nat :=
  (List.range b.length).filter (fun j => b.getD j c = c)

/-- The `b2j` mapping of `SequenceMatcher.__chain_b`: occurrence positions,
with "popular" entries deleted when `len(b) >= 200` (`autojunk`). -/
def b2j (b : Str) (c : Char) : List Nat :=
  let idxs := posOf c b
  if 200 ≤ b.length ∧ b.length / 100 + 1 < idxs.length then [] else idxs

/-- Lookup in the `j2len` row map, defaulting to 0 (`j2len.get(j-1, 0)`). -/
def jlook (m : List (Nat × Nat)) (j : Nat) : Nat :=
  (((m.find? (fun p => p.1 = j)).map (fun p => p.2)).getD 0)

/-- One row (fixed `i`) of the `find_longest_match` dynamic program: fold
over the positions `j` of `a[i]` in `b`, building the new `j2len` row and
updating the best block `(besti, bestj, bestsize)`. -/
def flmRow (row : List (Nat × Nat)) (i : Nat) (js : List Nat)
    (best : Nat × Nat × Nat) : List (Nat × Nat) × (Nat × Nat × Nat) :=
  js.foldl
    (fun st j =>
      let k := (if j = 0 then 0 else jlook row (j - 1)) + 1
      (st.1 ++ [(j, k)],
       if st.2.2.2 < k then (i + 1 - k, j + 1 - k, k) else st.2))
    ([], best)

/-- The left-extension loop of `find_longest_match` (with empty junk set):
extend the best block while the characters just before it are equal. -/
def extLeft (a b : Str) (alo blo : Nat) : Nat → Nat × Nat × Nat → Nat × Nat × Nat
  | 0, st => st
  | fuel + 1, (bi, bj, bs) =>
    if alo < bi ∧ blo < bj ∧ a.getD (bi - 1) '\x00' = b.getD (bj - 1) '\x01' then
      extLeft a b alo blo fuel (bi - 1, bj - 1, bs + 1)
    else (bi, bj, bs)

/-- The right-extension loop of `find_longest_match` (with empty junk set). -/
def extRight (a b : Str) (ahi bhi bi bj : Nat) : Nat → Nat → Nat
  | 0, bs => bs
  | fuel + 1, bs =>
    if bi + bs < ahi ∧ bj + bs < bhi ∧
        a.getD (bi + bs) '\x00' = b.getD (bj + bs) '\x01' then
      extRight a b ahi bhi bi bj fuel (bs + 1)
    else bs

/-- `SequenceMatcher.find_longest_match(alo, ahi, blo, bhi)`. -/
def findLongestMatch (a b : Str) (alo ahi blo bhi : Nat) : Nat × Nat × Nat :=
  let dp :=
    (List.range' alo (ahi - alo)).foldl
      (fun (st : List (Nat × Nat) × (Nat × Nat × Nat)) i =>
        let js := (b2j b (a.getD i '\x00')).filter
          (fun j => decide (blo ≤ j) && decide (j < bhi))
        flmRow st.1 i js st.2)
      ([], (alo, blo, 0))
  let st1 := extLeft a b alo blo dp.2.1 dp.2
  (st1.1, st1.2.1, extRight a b ahi bhi st1.1 st1.2.1 ahi st1.2.2)

/-- Total size of all matching blocks (the sum taken by `ratio` over
`get_matching_blocks`), computed by the recursive decomposition around each
longest match; `fuel` dominates the recursion depth. -/
def matchesFuel (a b : Str) : Nat → Nat → Nat → Nat → Nat → Nat
  | 0, _, _, _, _ => 0
  | fuel + 1, alo, ahi, blo, bhi =>
    let m := findLongestMatch a b alo ahi blo bhi
    if m.2.2 = 0 then 0
    else
      matchesFuel a b fuel alo m.1 blo m.2.1 + m.2.2 +
        matchesFuel a b fuel (m.1 + m.2.2) ahi (m.2.1 + m.2.2) bhi

/-- Number of matched characters between `a` and `b`. -/
def smMatches (a b : Str) : Nat :=
  matchesFuel a b (a.length + b.length + 1) 0 a.length 0 b.length

/-- `SequenceMatcher.ratio()`: `2.0 * M / T` (and 1.0 for two empty
sequences). -/
def smRatio (a b : Str) : ℚ :=
  if a.length + b.length = 0 then 1
  else 2 * (smMatches a b : ℚ) / ((a.length : ℚ) + (b.length : ℚ))

/-- The source's `fuzzy_ratio(a, b)` (lines 49-50). -/
def fuzzy_ratio (a b : Str) : ℚ :=
  smRatio (normalize a) (normalize b)

/-- The scoring threshold of the practice-prompt handler (line 305):
`correct = score >= 0.65`. -/
def scoreThreshold : ℚ := 65 / 100

/-!
Data model.  A user record (`default_user`, lines 70-78) always carries a
`stats` object; vocabulary entries and history turns read from the store may
lack fields, hence `Option`; unknown extra fields of a vocabulary entry are
kept abstractly in `extra` (the rebuild in `deduplicate_user` drops them).
-/

structure RawVocab where
  native : Option Str
  target : Option Str
  correct_answer : Option Str
  topic : Option Str
  level : Option Int
  last_used : Option Str
  extra : List (Str × Str)
deriving DecidableEq

structure RawTurn where
  tWhen : Option Str
  prompt : Option Str
  your : Option Str
  user : Option Str
  ai : Option Str
  reply : Option Str
  lang : Option Str
  target : Option Str
  score : Option ℚ
deriving DecidableEq

structure Stats where
  correct : Int
  wrong : Int
  recent : List Int
deriving DecidableEq

structure UserRec where
  name : Option Str
  lang : Option Str
  level : Int
  stats : Stats
  custom_vocab : List (Str × List RawVocab)
  conversation_history : List RawTurn
deriving DecidableEq

structure Store where
  users : List (Str × UserRec)
deriving DecidableEq

/-!
Deduplication (`deduplicate_user`, lines 100-127, and `deduplicate_global`,
lines 129-135).
-/

/-- The `native` value computed at line 105: `(it.get("native") or "").strip()`. -/
def vNative (it : RawVocab) : Str := pyStrip (orS it.native [])

/-- The `target` value computed at line 106:
`(it.get("target") or it.get("correct_answer") or "").strip()`. -/
def vTarget (it : RawVocab) : Str := pyStrip (orS it.target (orS it.correct_answer []))

/-- The `topic` value computed at line 107: `(it.get("topic") or "").strip()`. -/
def vTopic (it : RawVocab) : Str := pyStrip (orS it.topic [])

/-- The `level` value computed at line 108: `int(it.get("level") or 1)`
(missing, `None` and `0` are all falsy, yielding the default 1). -/
def levelOf (it : RawVocab) : Int :=
  match it.level with
  | some v => if v = 0 then 1 else v
  | none => 1

/-- The vocabulary identity key of line 109:
`(normalize(native), normalize(target), topic, level)`. -/
def vocabKey (it : RawVocab) : Str × Str × Str × Int :=
  (normalize (vNative it), normalize (vTarget it), vTopic it, levelOf it)

/-- The canonical entry appended at line 112 for a first occurrence. -/
def rebuildVocab (now : Str) (it : RawVocab) : RawVocab :=
  { native := some (vNative it), target := some (vTarget it),
    correct_answer := none, topic := some (vTopic it),
    level := some (levelOf it), last_used := some (orS it.last_used now),
    extra := [] }

/-- The per-language vocabulary dedup loop (lines 103-112), with the `seen`
set made explicit. -/
def dedupVocabAux (now : Str) : List (Str × Str × Str × Int) → List RawVocab → List RawVocab
  | _, [] => []
  | seen, it :: rest =>
    if vocabKey it ∈ seen then dedupVocabAux now seen rest
    else rebuildVocab now it :: dedupVocabAux now (vocabKey it :: seen) rest

def dedupVocab (now : Str) (l : List RawVocab) : List RawVocab :=
  dedupVocabAux now [] l

/-- The `u` value of line 117: `(turn.get("your") or turn.get("user") or "").strip()`. -/
def tYour (t : RawTurn) : Str := pyStrip (orS t.your (orS t.user []))

/-- The `a` value of line 118: `(turn.get("ai") or turn.get("reply") or "").strip()`. -/
def tAi (t : RawTurn) : Str := pyStrip (orS t.ai (orS t.reply []))

/-- The history identity key of lines 117-120:
`(normalize(u), normalize(a), turn.get("lang") or mem.get("lang") or "")`. -/
def histKey (memLang : Option Str) (t : RawTurn) : Str × Str × Str :=
  (normalize (tYour t), normalize (tAi t), orS t.lang (orS memLang []))

/-- The canonical history entry appended at line 123 for a first occurrence. -/
def rebuildTurn (now : Str) (t : RawTurn) : RawTurn :=
  { tWhen := some (orS t.tWhen now), prompt := some (orS t.prompt []),
    your := some (tYour t), user := none, ai := none, reply := none,
    lang := none, target := some (orS t.target []), score := t.score }

/-- The history dedup loop (lines 115-123). -/
def dedupHistAux (now : Str) (memLang : Option Str) :
    List (Str × Str × Str) → List RawTurn → List RawTurn
  | _, [] => []
  | seen, t :: rest =>
    if histKey memLang t ∈ seen then dedupHistAux now memLang seen rest
    else rebuildTurn now t :: dedupHistAux now memLang (histKey memLang t :: seen) rest

/-- The source's `deduplicate_user(mem)` (lines 100-127): dedupe each
language's vocabulary list, dedupe history and keep `unique[-500:]`, trim
`stats.recent` to its last 200 entries. -/
def deduplicate_user (now : Str) (mem : UserRec) : UserRec :=
  { mem with
    custom_vocab := mem.custom_vocab.map (fun p => (p.1, dedupVocab now p.2)),
    conversation_history :=
      lastN 500 (dedupHistAux now mem.lang [] mem.conversation_history),
    stats := { mem.stats with recent := lastN 200 mem.stats.recent } }

/-- The source's `deduplicate_global(data)` (lines 129-135). -/
def deduplicate_global (now : Str) (data : Store) : Store :=
  { users := data.users.map (fun p => (p.1, deduplicate_user now p.2)) }

/-- The source's `save_global(data)` (lines 93-97): the store content
persisted to disk, i.e. the store after `deduplicate_global`. -/
def save_global (now : Str) (data : Store) : Store :=
  deduplicate_global now data

/-!
Loading (`load_global`, lines 80-91).  The file system and JSON parser are
external; their possible outcomes are modelled as an input datatype:
the file may be absent, unreadable/unparsable, or parse to a document that
either has a `"users"` key or not.
-/

inductive LoadInput where
  | absent
  | unparsable
  | parsedWithUsers (users : List (Str × UserRec))
  | parsedBare (doc : List (Str × UserRec))
deriving DecidableEq

def load_global : LoadInput → Store
  | .absent => { users := [] }
  | .unparsable => { users := [] }
  | .parsedWithUsers u => { users := u }
  | .parsedBare d => { users := d }

/-!
The practice-prompt scoring flow (lines 303-326) and its helpers.
-/

/-- Round-half-to-even on rationals, at the unit. -/
def roundHalfEven (x : ℚ) : ℤ :=
  if Int.fract x = 1 / 2 then 2 * round (x / 2) else round x

/-- Model of Python `round(score, 2)` (line 307/326): round to two decimal
places, half to even. -/
def pyRound2 (q : ℚ) : ℚ :=
  (roundHalfEven (q * 100) : ℚ) / 100

/-- Python `d.setdefault(lang, []).extend(vv)` on a language-to-vocabulary
mapping (used by `add_attempt_to_vocab` with a single entry, and by the
admin merge handler, line 417). -/
def vocabExtend : List (Str × List RawVocab) → Str → List RawVocab → List (Str × List RawVocab)
  | [], lang, vv => [(lang, vv)]
  | p :: rest, lang, vv =>
    if p.1 = lang then (p.1, p.2 ++ vv) :: rest else p :: vocabExtend rest lang vv

/-- The source's `add_attempt_to_vocab` (lines 206-208). -/
def add_attempt_to_vocab (mem : UserRec) (lang : Str) (user_ans correct_ans : Str)
    (topic : Str) (level : Int) (now : Str) : UserRec :=
  { mem with
    custom_vocab := vocabExtend mem.custom_vocab lang
      [{ native := some user_ans, target := some correct_ans, correct_answer := none,
         topic := some topic, level := some level, last_used := some now, extra := [] }] }

/-- A prompt item as built by `choose_prompt_for_user` (lines 191-201): all
four fields are always populated there. -/
structure PromptItem where
  native : Str
  target : Str
  topic : Str
  level : Int
deriving DecidableEq

/-- The default practice language string `"es"`. -/
def esLang : Str := ("es").toList

/-- The history entry appended by the practice-prompt handler at line 326:
`{"when": now_iso(), "prompt": item.get("native"), "your": text,
"target": item.get("target"), "score": round(score, 2)}` - it carries no
`ai`, `reply`, `user` or `lang` field. -/
def practiceTurn (now : Str) (item : PromptItem) (text : Str) (score : ℚ) : RawTurn :=
  { tWhen := some now, prompt := some item.native, your := some text,
    user := none, ai := none, reply := none, lang := none,
    target := some item.target, score := some (pyRound2 score) }

/-- The recent-window update of lines 314-315:
append `1 if correct else 0`, keep the last 20. -/
def recentAfter (recent : List Int) (correct : Prop) [Decidable correct] : List Int :=
  lastN 20 (recent ++ [if correct then 1 else 0])

/-- The auto-level adjustment of lines 317-324. -/
def levelAfter (recent1 : List Int) (level : Int) : Int :=
  if 6 ≤ recent1.length then
    let rate : ℚ := (recent1.sum : ℚ) / (recent1.length : ℚ)
    if 8 / 10 ≤ rate ∧ level < 5 then level + 1
    else if rate ≤ 5 / 10 ∧ 1 < level then level - 1
    else level
  else level

/-- The practice-prompt scoring flow, lines 304-326: compute the score and
correctness, update `stats.correct` / `stats.wrong`, record a mistake entry
on an incorrect answer, update the recent window and the level, and append
the history entry. -/
def score_attempt (now : Str) (mem : UserRec) (text : Str) (item : PromptItem) : UserRec :=
  let score := fuzzy_ratio text item.target
  let mem1 :=
    if scoreThreshold ≤ score then
      { mem with stats := { mem.stats with correct := mem.stats.correct + 1 } }
    else
      add_attempt_to_vocab
        { mem with stats := { mem.stats with wrong := mem.stats.wrong + 1 } }
        (mem.lang.getD esLang) text item.target item.topic mem.level now
  let recent1 := recentAfter mem1.stats.recent (scoreThreshold ≤ score)
  let mem2 :=
    { mem1 with
      stats := { mem1.stats with recent := recent1 },
      level := levelAfter recent1 mem1.level }
  { mem2 with
    conversation_history :=
      mem2.conversation_history ++ [practiceTurn now item text score] }

/-!
The admin merge handler (lines 404-418).
-/

/-- First-match lookup in an association list (a Python dict access
`m.get(k)` under the unique-keys representation invariant). -/
def alGet : List (Str × α) → Str → Option α
  | [], _ => none
  | p :: rest, k => if p.1 = k then some p.2 else alGet rest k

/-- Merging one incoming user record into an existing one (lines 414-417):
append incoming history; extend each incoming language's vocabulary list;
all other fields of the existing record are untouched. -/
def merge_user (existing incoming : UserRec) : UserRec :=
  { existing with
    conversation_history :=
      existing.conversation_history ++ incoming.conversation_history,
    custom_vocab :=
      incoming.custom_vocab.foldl (fun m p => vocabExtend m p.1 p.2)
        existing.custom_vocab }

/-- One step of the merge loop (lines 409-417): a new username is inserted
wholesale (dicts append new keys at the end), an existing one is merged in
place. -/
def insertOrMerge : List (Str × UserRec) → Str × UserRec → List (Str × UserRec)
  | [], p => [p]
  | q :: rest, p =>
    if q.1 = p.1 then (q.1, merge_user q.2 p.2) :: rest
    else q :: insertOrMerge rest p

/-- The whole merge loop `for k, v in rd.get("users", rd).items(): ...`
(lines 409-417), with `incoming` the uploaded document's users mapping. -/
def merge_store (store incoming : List (Str × UserRec)) : List (Str × UserRec) :=
  incoming.foldl insertOrMerge store

/-!
Lemmas about the string canonicalization functions.
-/

theorem dropWhile_map_comm (f : Char → Char) (p : Char → Bool)
    (hf : ∀ c, p (f c) = p c) (l : Str) :
    (l.map f).dropWhile p = (l.dropWhile p).map f := by
  induction l with
  | nil => rfl
  | cons a t ih =>
    simp only [List.map_cons, List.dropWhile_cons, hf]
    split <;> simp [ih]

theorem pyStrip_map_comm (f : Char → Char)
    (hf : ∀ c, pyIsSpace (f c) = pyIsSpace c) (l : Str) :
    pyStrip (l.map f) = (pyStrip l).map f := by
  unfold pyStrip
  rw [dropWhile_map_comm f _ hf, ← List.map_reverse, dropWhile_map_comm f _ hf,
    List.map_reverse]

theorem pyStrip_eq_rdrop (s : Str) :
    pyStrip s = (s.dropWhile pyIsSpace).rdropWhile pyIsSpace := rfl

theorem not_space_head_dropWhile :
    ∀ (l : Str) (a : Char) (rest : Str),
      l.dropWhile pyIsSpace = a :: rest → pyIsSpace a = false := by
  intro l
  induction l with
  | nil => intro a rest h; cases h
  | cons b t ih =>
    intro a rest h
    by_cases hb : pyIsSpace b
    · rw [List.dropWhile_cons_of_pos hb] at h
      exact ih _ _ h
    · rw [List.dropWhile_cons_of_neg hb] at h
      cases h
      simpa using hb

theorem dropWhile_pyStrip (s : Str) :
    (pyStrip s).dropWhile pyIsSpace = pyStrip s := by
  cases hP : pyStrip s with
  | nil => rfl
  | cons a t0 =>
    obtain ⟨t, ht⟩ := List.rdropWhile_prefix pyIsSpace (s.dropWhile pyIsSpace)
    rw [← pyStrip_eq_rdrop, hP] at ht
    have hda : List.dropWhile pyIsSpace s = a :: (t0 ++ t) := by
      rw [← ht]
      simp
    have hna := not_space_head_dropWhile s a _ hda
    rw [List.dropWhile_cons_of_neg (by simp [hna])]

theorem pyStrip_idem (s : Str) : pyStrip (pyStrip s) = pyStrip s := by
  rw [pyStrip_eq_rdrop (pyStrip s), dropWhile_pyStrip, pyStrip_eq_rdrop s,
    List.rdropWhile_idempotent]

theorem pyIsSpace_foldLower (c : Char) :
    pyIsSpace (pyLower (foldChar c)) = pyIsSpace c := by
  have hrepl : ∀ q ∈ replPairs,
      pyIsSpace (pyLower q.2) = false ∧ pyIsSpace q.1 = false := by decide
  have hlow : ∀ q ∈ lowerPairs,
      pyIsSpace q.2 = false ∧ pyIsSpace q.1 = false := by decide
  unfold foldChar
  cases hf : replPairs.find? (fun p => p.1 = c) with
  | some q =>
    have hmem := List.mem_of_find?_eq_some hf
    have hq1 : q.1 = c := by simpa using List.find?_some hf
    obtain ⟨h2, h1⟩ := hrepl q hmem
    have hred : (Option.map (fun p => p.2) (some q)).getD c = q.2 := rfl
    rw [hred, h2, ← hq1, h1]
  | none =>
    show pyIsSpace (pyLower c) = pyIsSpace c
    unfold pyLower
    cases hl : lowerPairs.find? (fun p => p.1 = c) with
    | some q =>
      have hmem := List.mem_of_find?_eq_some hl
      have hq1 : q.1 = c := by simpa using List.find?_some hl
      obtain ⟨h2, h1⟩ := hlow q hmem
      have hred : (Option.map (fun p => p.2) (some q)).getD c = q.2 := rfl
      rw [hred, h2, ← hq1, h1]
    | none => rfl

theorem normalize_eq_pipeline (s : Str) :
    normalize s = pyStrip ((s.map foldChar).map pyLower) := by
  cases s with
  | nil => rfl
  | cons a t => simp [normalize]

theorem normalize_pyStrip (s : Str) : normalize (pyStrip s) = normalize s := by
  rw [normalize_eq_pipeline, normalize_eq_pipeline, List.map_map, List.map_map]
  rw [pyStrip_map_comm (pyLower ∘ foldChar) (fun c => pyIsSpace_foldLower c),
    pyStrip_map_comm (pyLower ∘ foldChar) (fun c => pyIsSpace_foldLower c),
    pyStrip_idem]

@[simp] theorem orS_none (d : Str) : orS none d = d := rfl

theorem orS_some_nil (s : Str) : orS (some s) [] = s := by
  show (if s = [] then [] else s) = s
  split <;> simp_all

theorem orS_absorb (x : Option Str) (d : Str) : orS (some (orS x d)) d = orS x d := by
  cases x with
  | none =>
    show (if d = [] then d else d) = d
    split <;> rfl
  | some s =>
    by_cases h : s = []
    · subst h
      show orS (some (orS (some []) d)) d = orS (some []) d
      show (if (if ([] : Str) = [] then d else []) = [] then d else
        (if ([] : Str) = [] then d else [])) = if ([] : Str) = [] then d else []
      simp
    · show (if (if s = [] then d else s) = [] then d else if s = [] then d else s) =
        if s = [] then d else s
      simp [h]

/-!
The canonical rebuilds of `deduplicate_user` are fixed points and preserve
identity keys.
-/

theorem vNative_rebuild (now : Str) (it : RawVocab) :
    vNative (rebuildVocab now it) = vNative it := by
  show pyStrip (orS (some (vNative it)) []) = vNative it
  rw [orS_some_nil]
  exact pyStrip_idem _

theorem vTarget_rebuild (now : Str) (it : RawVocab) :
    vTarget (rebuildVocab now it) = vTarget it := by
  show pyStrip (orS (some (vTarget it)) (orS none [])) = vTarget it
  rw [orS_none, orS_some_nil]
  exact pyStrip_idem _

theorem vTopic_rebuild (now : Str) (it : RawVocab) :
    vTopic (rebuildVocab now it) = vTopic it := by
  show pyStrip (orS (some (vTopic it)) []) = vTopic it
  rw [orS_some_nil]
  exact pyStrip_idem _

theorem levelOf_ne_zero (it : RawVocab) : levelOf it ≠ 0 := by
  unfold levelOf
  cases it.level with
  | none => decide
  | some v =>
    by_cases h : v = 0
    · simp [h]
    · simp [h]

theorem levelOf_rebuild (now : Str) (it : RawVocab) :
    levelOf (rebuildVocab now it) = levelOf it := by
  show (if levelOf it = 0 then 1 else levelOf it) = levelOf it
  simp [levelOf_ne_zero it]

theorem vocabKey_rebuild (now : Str) (it : RawVocab) :
    vocabKey (rebuildVocab now it) = vocabKey it := by
  unfold vocabKey
  rw [vNative_rebuild, vTarget_rebuild, vTopic_rebuild, levelOf_rebuild]

theorem rebuildVocab_idem (now : Str) (it : RawVocab) :
    rebuildVocab now (rebuildVocab now it) = rebuildVocab now it := by
  have h1 := vNative_rebuild now it
  have h2 := vTarget_rebuild now it
  have h3 := vTopic_rebuild now it
  have h4 := levelOf_rebuild now it
  show ({ native := some (vNative (rebuildVocab now it)),
          target := some (vTarget (rebuildVocab now it)),
          correct_answer := none, topic := some (vTopic (rebuildVocab now it)),
          level := some (levelOf (rebuildVocab now it)),
          last_used := some (orS (rebuildVocab now it).last_used now),
          extra := [] } : RawVocab) = rebuildVocab now it
  rw [h1, h2, h3, h4]
  show ({ native := some (vNative it), target := some (vTarget it),
          correct_answer := none, topic := some (vTopic it),
          level := some (levelOf it),
          last_used := some (orS (some (orS it.last_used now)) now),
          extra := [] } : RawVocab) = rebuildVocab now it
  rw [orS_absorb]
  rfl

theorem tYour_rebuild (now : Str) (t : RawTurn) :
    tYour (rebuildTurn now t) = tYour t := by
  show pyStrip (orS (some (tYour t)) (orS none [])) = tYour t
  rw [orS_none, orS_some_nil]
  exact pyStrip_idem _

theorem tAi_rebuild (now : Str) (t : RawTurn) : tAi (rebuildTurn now t) = [] := rfl

/-- A history turn that carries none of the fields the identity key reads
besides `your`/`user`: no `ai`, no `reply`, no `lang`.  Every history entry
the app itself writes has this shape. -/
def noAiFields (t : RawTurn) : Prop :=
  t.ai = none ∧ t.reply = none ∧ t.lang = none

instance (t : RawTurn) : Decidable (noAiFields t) := by
  unfold noAiFields
  infer_instance

theorem rebuildTurn_noAiFields (now : Str) (t : RawTurn) :
    noAiFields (rebuildTurn now t) := ⟨rfl, rfl, rfl⟩

theorem histKey_rebuild (now : Str) (L : Option Str) (t : RawTurn)
    (h : noAiFields t) : histKey L (rebuildTurn now t) = histKey L t := by
  obtain ⟨ha, hr, hl⟩ := h
  unfold histKey
  rw [tYour_rebuild, tAi_rebuild]
  have h2 : tAi t = [] := by
    unfold tAi
    rw [ha, hr]
    rfl
  rw [h2]
  have h3 : (rebuildTurn now t).lang = none := rfl
  rw [h3, hl]

theorem rebuildTurn_idem (now : Str) (t : RawTurn) :
    rebuildTurn now (rebuildTurn now t) = rebuildTurn now t := by
  have h1 := tYour_rebuild now t
  show ({ tWhen := some (orS (some (orS t.tWhen now)) now),
          prompt := some (orS (some (orS t.prompt [])) []),
          your := some (tYour (rebuildTurn now t)),
          user := none, ai := none, reply := none, lang := none,
          target := some (orS (some (orS t.target [])) []),
          score := t.score } : RawTurn) = rebuildTurn now t
  rw [h1, orS_absorb, orS_absorb, orS_absorb]
  rfl

/-!
The dedup loops: output keys are pairwise distinct, output entries are
rebuilds, the loops fix lists that are already canonical, and the survivor
for each key is the rebuild of its first occurrence.
-/

theorem dedupVocabAux_mem (now : Str) :
    ∀ (l : List RawVocab) (seen : List (Str × Str × Str × Int)) (e : RawVocab),
      e ∈ dedupVocabAux now seen l → ∃ it ∈ l, e = rebuildVocab now it
  | [], _, e => by simp [dedupVocabAux]
  | it :: rest, seen, e => by
    unfold dedupVocabAux
    split
    · intro h
      obtain ⟨it2, hm, he⟩ := dedupVocabAux_mem now rest seen e h
      exact ⟨it2, List.mem_cons_of_mem _ hm, he⟩
    · intro h
      rcases List.mem_cons.mp h with rfl | h2
      · exact ⟨it, List.mem_cons_self _ _, rfl⟩
      · obtain ⟨it2, hm, he⟩ := dedupVocabAux_mem now rest _ e h2
        exact ⟨it2, List.mem_cons_of_mem _ hm, he⟩

theorem dedupVocabAux_keys (now : Str) :
    ∀ (l : List RawVocab) (seen : List (Str × Str × Str × Int)),
      ((dedupVocabAux now seen l).map vocabKey).Nodup ∧
        ∀ k ∈ (dedupVocabAux now seen l).map vocabKey, k ∉ seen
  | [], seen => by simp [dedupVocabAux]
  | it :: rest, seen => by
    by_cases h : vocabKey it ∈ seen
    · rw [dedupVocabAux, if_pos h]
      exact dedupVocabAux_keys now rest seen
    · rw [dedupVocabAux, if_neg h]
      obtain ⟨h1, h2⟩ := dedupVocabAux_keys now rest (vocabKey it :: seen)
      rw [List.map_cons, vocabKey_rebuild]
      refine ⟨List.nodup_cons.mpr ⟨fun hk => (h2 _ hk) (List.mem_cons_self _ _), h1⟩, ?_⟩
      intro k hk
      rcases List.mem_cons.mp hk with rfl | hk2
      · exact h
      · exact fun hks => (h2 _ hk2) (List.mem_cons_of_mem _ hks)

theorem dedupVocabAux_eq_self (now : Str) :
    ∀ (l : List RawVocab) (seen : List (Str × Str × Str × Int)),
      (∀ e ∈ l, rebuildVocab now e = e) → (l.map vocabKey).Nodup →
      (∀ e ∈ l, vocabKey e ∉ seen) → dedupVocabAux now seen l = l
  | [], _, _, _, _ => rfl
  | it :: rest, seen, hfix, hnd, hseen => by
    rw [dedupVocabAux, if_neg (hseen it (List.mem_cons_self _ _))]
    rw [hfix it (List.mem_cons_self _ _)]
    congr 1
    rw [List.map_cons, List.nodup_cons] at hnd
    refine dedupVocabAux_eq_self now rest _ (fun e he => hfix e (List.mem_cons_of_mem _ he))
      hnd.2 ?_
    intro e he hk
    rcases List.mem_cons.mp hk with hk1 | hk2
    · exact hnd.1 (hk1 ▸ List.mem_map_of_mem vocabKey he)
    · exact hseen e (List.mem_cons_of_mem _ he) hk2

theorem dedupVocab_idem (now : Str) (l : List RawVocab) :
    dedupVocab now (dedupVocab now l) = dedupVocab now l := by
  unfold dedupVocab
  refine dedupVocabAux_eq_self now _ _ ?_ (dedupVocabAux_keys now l []).1 (by simp)
  intro e he
  obtain ⟨it, _, rfl⟩ := dedupVocabAux_mem now l [] e he
  exact rebuildVocab_idem now it

theorem dedupVocabAux_filter_seen (now : Str) :
    ∀ (l : List RawVocab) (seen : List (Str × Str × Str × Int)) (k : Str × Str × Str × Int),
      k ∈ seen →
      (dedupVocabAux now seen l).filter (fun e => decide (vocabKey e = k)) = []
  | [], _, _, _ => rfl
  | it :: rest, seen, k, hk => by
    unfold dedupVocabAux
    split
    · exact dedupVocabAux_filter_seen now rest seen k hk
    · rename_i hnot
      have hne : vocabKey (rebuildVocab now it) ≠ k := by
        rw [vocabKey_rebuild]
        intro he
        exact hnot (he ▸ hk)
      rw [List.filter_cons_of_neg (by simpa using hne)]
      exact dedupVocabAux_filter_seen now rest _ k (List.mem_cons_of_mem _ hk)

theorem dedupVocabAux_filter_new (now : Str) :
    ∀ (l : List RawVocab) (seen : List (Str × Str × Str × Int)) (k : Str × Str × Str × Int),
      k ∉ seen →
      (dedupVocabAux now seen l).filter (fun e => decide (vocabKey e = k)) =
        ((l.find? (fun e => decide (vocabKey e = k))).map (rebuildVocab now)).toList
  | [], _, _, _ => rfl
  | it :: rest, seen, k, hk => by
    by_cases hmem : vocabKey it ∈ seen
    · rw [dedupVocabAux, if_pos hmem]
      have hne : vocabKey it ≠ k := fun he => hk (he ▸ hmem)
      rw [List.find?_cons_of_neg _ (by simpa using hne)]
      exact dedupVocabAux_filter_new now rest seen k hk
    · rw [dedupVocabAux, if_neg hmem]
      by_cases hkey : vocabKey it = k
      · rw [List.filter_cons_of_pos (by simpa [vocabKey_rebuild] using hkey)]
        rw [List.find?_cons_of_pos _ (by simpa using hkey)]
        rw [dedupVocabAux_filter_seen now rest _ k (hkey ▸ List.mem_cons_self _ _)]
        rfl
      · rw [List.filter_cons_of_neg (by simpa [vocabKey_rebuild] using hkey)]
        rw [List.find?_cons_of_neg _ (by simpa using hkey)]
        refine dedupVocabAux_filter_new now rest _ k ?_
        intro hin
        rcases List.mem_cons.mp hin with h1 | h2
        · exact hkey h1.symm
        · exact hk h2

/-!
Bounded-window lemmas (`l[-n:]`).
-/

theorem lastN_length_le (n : Nat) (l : List α) : (lastN n l).length ≤ n := by
  simp only [lastN, List.length_drop]
  omega

theorem lastN_of_le {n : Nat} {l : List α} (h : l.length ≤ n) : lastN n l = l := by
  unfold lastN
  have h0 : l.length - n = 0 := by omega
  rw [h0, List.drop_zero]

theorem lastN_idem (n : Nat) (l : List α) : lastN n (lastN n l) = lastN n l :=
  lastN_of_le (lastN_length_le n l)

theorem lastN_sublist (n : Nat) (l : List α) : (lastN n l).Sublist l :=
  List.drop_sublist _ _

theorem map_lastN (f : α → β) (n : Nat) (l : List α) :
    (lastN n l).map f = lastN n (l.map f) := by
  simp [lastN, List.map_drop, List.length_map]

/-!
History dedup lemmas; key preservation needs `noAiFields` because the
rebuild drops the `ai`, `reply` and `lang` fields that the key reads.
-/

theorem dedupHistAux_mem (now : Str) (L : Option Str) :
    ∀ (l : List RawTurn) (seen : List (Str × Str × Str)) (e : RawTurn),
      e ∈ dedupHistAux now L seen l → ∃ t ∈ l, e = rebuildTurn now t
  | [], _, e => by simp [dedupHistAux]
  | t :: rest, seen, e => by
    unfold dedupHistAux
    split
    · intro h
      obtain ⟨t2, hm, he⟩ := dedupHistAux_mem now L rest seen e h
      exact ⟨t2, List.mem_cons_of_mem _ hm, he⟩
    · intro h
      rcases List.mem_cons.mp h with rfl | h2
      · exact ⟨t, List.mem_cons_self _ _, rfl⟩
      · obtain ⟨t2, hm, he⟩ := dedupHistAux_mem now L rest _ e h2
        exact ⟨t2, List.mem_cons_of_mem _ hm, he⟩

theorem dedupHistAux_keys (now : Str) (L : Option Str) :
    ∀ (l : List RawTurn) (seen : List (Str × Str × Str)),
      (∀ t ∈ l, noAiFields t) →
      ((dedupHistAux now L seen l).map (histKey L)).Nodup ∧
        ∀ k ∈ (dedupHistAux now L seen l).map (histKey L), k ∉ seen
  | [], seen, _ => by simp [dedupHistAux]
  | t :: rest, seen, hno => by
    have hrest : ∀ u ∈ rest, noAiFields u :=
      fun u hu => hno u (List.mem_cons_of_mem _ hu)
    by_cases h : histKey L t ∈ seen
    · rw [dedupHistAux, if_pos h]
      exact dedupHistAux_keys now L rest seen hrest
    · rw [dedupHistAux, if_neg h]
      obtain ⟨h1, h2⟩ := dedupHistAux_keys now L rest (histKey L t :: seen) hrest
      rw [List.map_cons, histKey_rebuild now L t (hno t (List.mem_cons_self _ _))]
      refine ⟨List.nodup_cons.mpr ⟨fun hk => (h2 _ hk) (List.mem_cons_self _ _), h1⟩, ?_⟩
      intro k hk
      rcases List.mem_cons.mp hk with rfl | hk2
      · exact h
      · exact fun hks => (h2 _ hk2) (List.mem_cons_of_mem _ hks)

theorem dedupHistAux_eq_self (now : Str) (L : Option Str) :
    ∀ (l : List RawTurn) (seen : List (Str × Str × Str)),
      (∀ e ∈ l, rebuildTurn now e = e) → ((l.map (histKey L)).Nodup) →
      (∀ e ∈ l, histKey L e ∉ seen) → dedupHistAux now L seen l = l
  | [], _, _, _, _ => rfl
  | t :: rest, seen, hfix, hnd, hseen => by
    rw [dedupHistAux, if_neg (hseen t (List.mem_cons_self _ _))]
    rw [hfix t (List.mem_cons_self _ _)]
    congr 1
    rw [List.map_cons, List.nodup_cons] at hnd
    refine dedupHistAux_eq_self now L rest _
      (fun e he => hfix e (List.mem_cons_of_mem _ he)) hnd.2 ?_
    intro e he hk
    rcases List.mem_cons.mp hk with hk1 | hk2
    · exact hnd.1 (hk1 ▸ List.mem_map_of_mem (histKey L) he)
    · exact hseen e (List.mem_cons_of_mem _ he) hk2

/-!
Two small extensionality helpers for the record types.
-/

theorem statsExt (a b : Stats) (h1 : a.correct = b.correct)
    (h2 : a.wrong = b.wrong) (h3 : a.recent = b.recent) : a = b := by
  cases a
  cases b
  simp_all

theorem userRecExt (a b : UserRec) (h1 : a.name = b.name) (h2 : a.lang = b.lang)
    (h3 : a.level = b.level) (h4 : a.stats = b.stats)
    (h5 : a.custom_vocab = b.custom_vocab)
    (h6 : a.conversation_history = b.conversation_history) : a = b := by
  cases a
  cases b
  simp_all

/-!
Idempotence of `deduplicate_user` on user records whose history entries
carry no `ai`/`reply`/`lang` fields, and of `deduplicate_global` on stores
of such records.
-/

theorem dedup_user_name (now : Str) (mem : UserRec) :
    (deduplicate_user now mem).name = mem.name := rfl

theorem dedup_user_lang (now : Str) (mem : UserRec) :
    (deduplicate_user now mem).lang = mem.lang := rfl

theorem dedup_user_level (now : Str) (mem : UserRec) :
    (deduplicate_user now mem).level = mem.level := rfl

theorem dedup_user_stats (now : Str) (mem : UserRec) :
    (deduplicate_user now mem).stats =
      { mem.stats with recent := lastN 200 mem.stats.recent } := rfl

theorem dedup_user_vocab (now : Str) (mem : UserRec) :
    (deduplicate_user now mem).custom_vocab =
      mem.custom_vocab.map (fun p => (p.1, dedupVocab now p.2)) := rfl

theorem dedup_user_hist (now : Str) (mem : UserRec) :
    (deduplicate_user now mem).conversation_history =
      lastN 500 (dedupHistAux now mem.lang [] mem.conversation_history) := rfl

theorem deduplicate_user_idem (now : Str) (mem : UserRec)
    (h : ∀ t ∈ mem.conversation_history, noAiFields t) :
    deduplicate_user now (deduplicate_user now mem) = deduplicate_user now mem := by
  refine userRecExt _ _ rfl rfl rfl
    (statsExt _ _ rfl rfl (lastN_idem 200 mem.stats.recent)) ?_ ?_
  · show List.map (fun p => (p.1, dedupVocab now p.2))
        (List.map (fun p => (p.1, dedupVocab now p.2)) mem.custom_vocab) =
      List.map (fun p => (p.1, dedupVocab now p.2)) mem.custom_vocab
    rw [List.map_map]
    refine List.map_congr_left ?_
    intro p _
    simp [Function.comp, dedupVocab_idem]
  · show lastN 500 (dedupHistAux now mem.lang []
        (lastN 500 (dedupHistAux now mem.lang [] mem.conversation_history))) =
      lastN 500 (dedupHistAux now mem.lang [] mem.conversation_history)
    set u := dedupHistAux now mem.lang [] mem.conversation_history with hu
    have hfix : ∀ e ∈ lastN 500 u, rebuildTurn now e = e := by
      intro e he
      have he2 : e ∈ u := (lastN_sublist 500 u).mem he
      obtain ⟨t, _, rfl⟩ := dedupHistAux_mem now mem.lang _ [] e he2
      exact rebuildTurn_idem now t
    have hnd : ((lastN 500 u).map (histKey mem.lang)).Nodup := by
      rw [map_lastN]
      exact ((dedupHistAux_keys now mem.lang _ [] h).1).sublist
        (lastN_sublist 500 _)
    rw [dedupHistAux_eq_self now mem.lang (lastN 500 u) [] hfix hnd (by simp)]
    exact lastN_idem 500 u

theorem deduplicate_global_idem (now : Str) (S : Store)
    (h : ∀ p ∈ S.users, ∀ t ∈ p.2.conversation_history, noAiFields t) :
    deduplicate_global now (deduplicate_global now S) = deduplicate_global now S := by
  unfold deduplicate_global
  simp only [List.map_map]
  congr 1
  refine List.map_congr_left ?_
  intro p hp
  simp only [Function.comp]
  rw [deduplicate_user_idem now p.2 (h p hp)]

/-!
Lookup lemmas for the merge handler.
-/

theorem alGet_some_mem_keys {α : Type} :
    ∀ (l : List (Str × α)) (k : Str) (v : α),
      alGet l k = some v → k ∈ l.map Prod.fst
  | [], _, _, h => by cases h
  | p :: rest, k, v, h => by
    rw [alGet] at h
    split at h
    · rename_i hp
      exact hp ▸ List.mem_cons_self _ _
    · exact List.mem_cons_of_mem _ (alGet_some_mem_keys rest k v h)

theorem alGet_vocabExtend :
    ∀ (m : List (Str × List RawVocab)) (lang : Str) (vv : List RawVocab) (k : Str),
      alGet (vocabExtend m lang vv) k =
        if k = lang then some ((alGet m lang).getD [] ++ vv) else alGet m k
  | [], lang, vv, k => by
    by_cases hk : k = lang
    · subst hk
      simp [vocabExtend, alGet]
    · simp [vocabExtend, alGet, hk, Ne.symm hk]
  | p :: rest, lang, vv, k => by
    by_cases hp : p.1 = lang
    · rw [vocabExtend, if_pos hp]
      by_cases hk : k = lang
      · subst hk
        show (if p.1 = k then some (p.2 ++ vv) else alGet rest k) = _
        rw [if_pos hp, if_pos rfl]
        show _ = some ((if p.1 = k then some p.2 else alGet rest k).getD [] ++ vv)
        rw [if_pos hp]
        rfl
      · have hpk : ¬ p.1 = k := fun h => hk (h.symm.trans hp)
        show (if p.1 = k then some (p.2 ++ vv) else alGet rest k) = _
        rw [if_neg hpk, if_neg hk]
        show alGet rest k = (if p.1 = k then some p.2 else alGet rest k)
        rw [if_neg hpk]
    · rw [vocabExtend, if_neg hp]
      show (if p.1 = k then some p.2 else alGet (vocabExtend rest lang vv) k) = _
      by_cases hpk : p.1 = k
      · have hk : ¬ k = lang := fun h => hp (hpk.trans h)
        rw [if_pos hpk, if_neg hk]
        show some p.2 = (if p.1 = k then some p.2 else alGet rest k)
        rw [if_pos hpk]
      · rw [if_neg hpk, alGet_vocabExtend rest lang vv k]
        by_cases hk : k = lang
        · rw [if_pos hk, if_pos hk]
          have heq : alGet (p :: rest) lang = alGet rest lang := by
            show (if p.1 = lang then some p.2 else alGet rest lang) = alGet rest lang
            rw [if_neg hp]
          rw [heq]
        · rw [if_neg hk, if_neg hk]
          show alGet rest k = (if p.1 = k then some p.2 else alGet rest k)
          rw [if_neg hpk]

theorem alGet_mergeVocabFold :
    ∀ (inc ex : List (Str × List RawVocab)) (k : Str),
      ((inc.map Prod.fst).Nodup) →
      alGet (inc.foldl (fun m p => vocabExtend m p.1 p.2) ex) k =
        match alGet inc k with
        | some vv => some ((alGet ex k).getD [] ++ vv)
        | none => alGet ex k
  | [], ex, k, _ => by simp [alGet]
  | p :: rest, ex, k, hnd => by
    rw [List.map_cons, List.nodup_cons] at hnd
    simp only [List.foldl_cons]
    rw [alGet_mergeVocabFold rest _ k hnd.2]
    cases hr : alGet rest k with
    | some vv =>
      have hpk : p.1 ≠ k := by
        intro he
        exact hnd.1 (he ▸ alGet_some_mem_keys rest k vv hr)
      have hx : alGet (vocabExtend ex p.1 p.2) k = alGet ex k := by
        rw [alGet_vocabExtend, if_neg (fun h : k = p.1 => hpk h.symm)]
      rw [hx, alGet, if_neg hpk, hr]
    | none =>
      by_cases hpk : p.1 = k
      · rw [alGet_vocabExtend, if_pos hpk.symm, alGet, if_pos hpk, hpk]
      · rw [alGet_vocabExtend, if_neg (fun h : k = p.1 => hpk h.symm),
          alGet, if_neg hpk, hr]

theorem alGet_insertOrMerge :
    ∀ (st : List (Str × UserRec)) (p : Str × UserRec) (k : Str),
      alGet (insertOrMerge st p) k =
        if p.1 = k then
          match alGet st p.1 with
          | none => some p.2
          | some ex => some (merge_user ex p.2)
        else alGet st k
  | [], p, k => by
    by_cases hk : p.1 = k
    · simp [insertOrMerge, alGet, hk]
    · simp [insertOrMerge, alGet, hk]
  | q :: rest, p, k => by
    by_cases hq : q.1 = p.1
    · rw [insertOrMerge, if_pos hq]
      show (if q.1 = k then some (merge_user q.2 p.2) else alGet rest k) = _
      by_cases hk : p.1 = k
      · rw [if_pos (hq.trans hk), if_pos hk]
        have heq : alGet (q :: rest) p.1 = some q.2 := by
          show (if q.1 = p.1 then some q.2 else alGet rest p.1) = some q.2
          rw [if_pos hq]
        rw [heq]
      · have hqk : ¬ q.1 = k := fun h => hk (hq.symm.trans h)
        rw [if_neg hqk, if_neg hk]
        show alGet rest k = (if q.1 = k then some q.2 else alGet rest k)
        rw [if_neg hqk]
    · rw [insertOrMerge, if_neg hq]
      show (if q.1 = k then some q.2 else alGet (insertOrMerge rest p) k) = _
      by_cases hqk : q.1 = k
      · have hk : ¬ p.1 = k := fun h => hq (hqk.trans h.symm)
        rw [if_pos hqk, if_neg hk]
        show some q.2 = (if q.1 = k then some q.2 else alGet rest k)
        rw [if_pos hqk]
      · rw [if_neg hqk, alGet_insertOrMerge rest p k]
        by_cases hk : p.1 = k
        · rw [if_pos hk, if_pos hk]
          have heq : alGet (q :: rest) p.1 = alGet rest p.1 := by
            show (if q.1 = p.1 then some q.2 else alGet rest p.1) = alGet rest p.1
            rw [if_neg hq]
          rw [heq]
        · rw [if_neg hk, if_neg hk]
          show alGet rest k = (if q.1 = k then some q.2 else alGet rest k)
          rw [if_neg hqk]

theorem alGet_merge_store :
    ∀ (inc st : List (Str × UserRec)) (k : Str),
      ((inc.map Prod.fst).Nodup) →
      alGet (merge_store st inc) k =
        match alGet inc k with
        | some v =>
          match alGet st k with
          | none => some v
          | some ex => some (merge_user ex v)
        | none => alGet st k
  | [], st, k, _ => by simp [merge_store, alGet]
  | p :: rest, st, k, hnd => by
    rw [List.map_cons, List.nodup_cons] at hnd
    show alGet (merge_store (insertOrMerge st p) rest) k = _
    rw [alGet_merge_store rest _ k hnd.2]
    cases hr : alGet rest k with
    | some v =>
      have hpk : ¬ p.1 = k := by
        intro he
        exact hnd.1 (he ▸ alGet_some_mem_keys rest k v hr)
      have h1 : alGet (insertOrMerge st p) k = alGet st k := by
        rw [alGet_insertOrMerge, if_neg hpk]
      have h2 : alGet (p :: rest) k = some v := by
        show (if p.1 = k then some p.2 else alGet rest k) = some v
        rw [if_neg hpk, hr]
      rw [h1, h2]
    | none =>
      by_cases hpk : p.1 = k
      · have h2 : alGet (p :: rest) k = some p.2 := by
          show (if p.1 = k then some p.2 else alGet rest k) = some p.2
          rw [if_pos hpk]
        rw [h2, alGet_insertOrMerge, if_pos hpk, hpk]
      · have h2 : alGet (p :: rest) k = alGet rest k := by
          show (if p.1 = k then some p.2 else alGet rest k) = alGet rest k
          rw [if_neg hpk]
        rw [h2, hr, alGet_insertOrMerge, if_neg hpk]

/-!
Projection lemmas for `score_attempt` and bounds for `levelAfter`.
-/

theorem score_attempt_level (now : Str) (mem : UserRec) (text : Str) (item : PromptItem) :
    (score_attempt now mem text item).level =
      levelAfter
        (recentAfter mem.stats.recent (scoreThreshold ≤ fuzzy_ratio text item.target))
        mem.level := by
  by_cases hc : scoreThreshold ≤ fuzzy_ratio text item.target
  · simp only [score_attempt, if_pos hc]
  · simp only [score_attempt, if_neg hc, add_attempt_to_vocab]

theorem score_attempt_recent (now : Str) (mem : UserRec) (text : Str) (item : PromptItem) :
    (score_attempt now mem text item).stats.recent =
      recentAfter mem.stats.recent (scoreThreshold ≤ fuzzy_ratio text item.target) := by
  by_cases hc : scoreThreshold ≤ fuzzy_ratio text item.target
  · simp only [score_attempt, if_pos hc]
  · simp only [score_attempt, if_neg hc, add_attempt_to_vocab]

theorem score_attempt_hist (now : Str) (mem : UserRec) (text : Str) (item : PromptItem) :
    (score_attempt now mem text item).conversation_history =
      mem.conversation_history ++
        [practiceTurn now item text (fuzzy_ratio text item.target)] := by
  by_cases hc : scoreThreshold ≤ fuzzy_ratio text item.target
  · simp only [score_attempt, if_pos hc]
  · simp only [score_attempt, if_neg hc, add_attempt_to_vocab]

theorem levelAfter_eq (r : List Int) (lvl : Int) :
    levelAfter r lvl =
      if 6 ≤ r.length then
        if (8 / 10 : ℚ) ≤ (r.sum : ℚ) / (r.length : ℚ) ∧ lvl < 5 then lvl + 1
        else if ((r.sum : ℚ) / (r.length : ℚ) ≤ 5 / 10) ∧ 1 < lvl then lvl - 1
        else lvl
      else lvl := rfl

theorem levelAfter_bounds (r : List Int) (lvl : Int) (h1 : 1 ≤ lvl) (h5 : lvl ≤ 5) :
    1 ≤ levelAfter r lvl ∧ levelAfter r lvl ≤ 5 := by
  rw [levelAfter_eq]
  split_ifs with h6 ha hb
  · obtain ⟨-, ha2⟩ := ha
    constructor <;> omega
  · obtain ⟨-, hb2⟩ := hb
    constructor <;> omega
  · constructor <;> omega
  · constructor <;> omega

theorem levelAfter_step (r : List Int) (lvl : Int) :
    levelAfter r lvl = lvl + 1 ∨ levelAfter r lvl = lvl - 1 ∨ levelAfter r lvl = lvl := by
  rw [levelAfter_eq]
  split_ifs <;> simp

/-!
Concrete values used by the claim theorems, their witnesses and
counterexamples.
-/

def sT : Str := ("2024-01-01T00:00:00Z").toList
def sU : Str := ("u").toList
def sB : Str := ("b").toList
def sHola : Str := ("hola").toList
def sHolaPad : Str := (" hola ").toList
def sBonjour : Str := ("bonjour").toList
def sComoAcc : Str := ("cómo estás").toList
def sComo : Str := ("como estas").toList
def sHi : Str := ("hi").toList
def sX : Str := ("x").toList
def sY : Str := ("y").toList
def sMisc : Str := ("misc").toList
def sFr : Str := ("fr").toList

def emptyStats : Stats := { correct := 0, wrong := 0, recent := [] }

def emptyVocab : RawVocab :=
  { native := none, target := none, correct_answer := none, topic := none,
    level := none, last_used := none, extra := [] }

def emptyTurn : RawTurn :=
  { tWhen := none, prompt := none, your := none, user := none, ai := none,
    reply := none, lang := none, target := none, score := none }

/-- A history turn with `your = "hi"` and `ai = "x"`. -/
def turnAiX : RawTurn := { emptyTurn with your := some sHi, ai := some sX }

/-- A history turn with `your = "hi"` and `ai = "y"`. -/
def turnAiY : RawTurn := { emptyTurn with your := some sHi, ai := some sY }

/-- A history turn of the shape the app itself writes. -/
def turnPlain : RawTurn := { emptyTurn with your := some sHi }

def vocabHola : RawVocab := { emptyVocab with native := some sHola }

def vocabHolaPad : RawVocab := { emptyVocab with native := some sHolaPad }

/-- A vocabulary entry with `level = 0` and `last_used = ""`. -/
def vocabLevelZero : RawVocab :=
  { emptyVocab with
    native := some sHola
    target := some sBonjour
    level := some 0
    last_used := some [] }

def itemHola : PromptItem :=
  { native := sHola, target := sHola, topic := sMisc, level := 1 }

def itemBonjour : PromptItem :=
  { native := sHola, target := sBonjour, topic := sMisc, level := 1 }

/-!
Evaluations of `fuzzy_ratio` on the spec's concrete pairs.
-/

theorem fuzzy_hola_hola : fuzzy_ratio sHola sHola = 1 := by
  have h1 : normalize sHola = sHola := by decide
  have h3 : smMatches sHola sHola = 4 := by decide
  have h4 : sHola.length = 4 := by decide
  simp only [fuzzy_ratio, smRatio, h1, h3, h4]
  norm_num

theorem fuzzy_hola_bonjour : fuzzy_ratio sHola sBonjour = 2 / 11 := by
  have h1 : normalize sHola = sHola := by decide
  have h2 : normalize sBonjour = sBonjour := by decide
  have h3 : smMatches sHola sBonjour = 1 := by decide
  have h4 : sHola.length = 4 := by decide
  have h5 : sBonjour.length = 7 := by decide
  simp only [fuzzy_ratio, smRatio, h1, h2, h3, h4, h5]
  norm_num

theorem fuzzy_como : fuzzy_ratio sComoAcc sComo = 1 := by
  have h1 : normalize sComoAcc = sComo := by decide
  have h2 : normalize sComo = sComo := by decide
  have h3 : smMatches sComo sComo = 10 := by decide
  have h4 : sComo.length = 10 := by decide
  simp only [fuzzy_ratio, smRatio, h1, h2, h3, h4]
  norm_num

/-- C6: the similarity function gives `similarity("hola","hola") == 1.0`;
`similarity("hola","bonjour") < 0.65`, so that attempt is classified
incorrect (the handler computes `correct = score >= 0.65`); and
`similarity("cómo estás","como estas") >= 0.65`, so the accent-differing
attempt is classified correct. -/
theorem C6_similarity_threshold :
    fuzzy_ratio sHola sHola = 1 ∧
    fuzzy_ratio sHola sBonjour < scoreThreshold ∧
    ¬ scoreThreshold ≤ fuzzy_ratio sHola sBonjour ∧
    scoreThreshold ≤ fuzzy_ratio sComoAcc sComo := by
  refine ⟨fuzzy_hola_hola, ?_, ?_, ?_⟩
  · rw [fuzzy_hola_bonjour]
    norm_num [scoreThreshold]
  · rw [fuzzy_hola_bonjour]
    norm_num [scoreThreshold]
  · rw [fuzzy_como]
    norm_num [scoreThreshold]

/-- C9: `load()` never raises - an absent or unparsable backing file yields
the empty store `{users:{}}`, a parsed document with a `users` key is used
as-is, and a parsed document without one is wrapped as the users mapping. -/
theorem C9_load_fails_safe :
    load_global .absent = { users := [] } ∧
    load_global .unparsable = { users := [] } ∧
    (∀ u, load_global (.parsedWithUsers u) = { users := u }) ∧
    (∀ d, load_global (.parsedBare d) = { users := d }) :=
  ⟨rfl, rfl, fun _ => rfl, fun _ => rfl⟩

/-!
Claim C7: properties of `normalize`.
-/

/-- The accented characters of the folding table (its keys). -/
def accentChars : List Char := replPairs.map (fun p => p.1)

/-- The uppercase forms of the folding table's accented characters; these
are NOT keys of the table. -/
def upperAccentChars : List Char := ['Á', 'É', 'Í', 'Ó', 'Ú', 'Ñ', 'Ü']

theorem pyLower_idem (c : Char) : pyLower (pyLower c) = pyLower c := by
  cases hl : lowerPairs.find? (fun p => p.1 = c) with
  | none =>
    have h1 : pyLower c = c := by
      unfold pyLower
      rw [hl]
      rfl
    rw [h1, h1]
  | some q =>
    have h1 : pyLower c = q.2 := by
      unfold pyLower
      rw [hl]
      rfl
    rw [h1]
    have hfix : ∀ r ∈ lowerPairs, pyLower r.2 = r.2 := by decide
    exact hfix q (List.mem_of_find?_eq_some hl)

theorem mem_pyStrip {c : Char} {s : Str} (h : c ∈ pyStrip s) : c ∈ s := by
  have h1 : (pyStrip s).Sublist (s.dropWhile pyIsSpace) :=
    (List.rdropWhile_prefix pyIsSpace (s.dropWhile pyIsSpace)).sublist
  have h2 : (s.dropWhile pyIsSpace).Sublist s :=
    (List.dropWhile_suffix pyIsSpace).sublist
  exact (h1.trans h2).mem h

theorem map_id_of_mem {α : Type} (f : α → α) :
    ∀ (l : List α), (∀ c ∈ l, f c = c) → l.map f = l
  | [], _ => rfl
  | a :: t, h => by
    rw [List.map_cons, h a (List.mem_cons_self _ _),
      map_id_of_mem f t (fun c hc => h c (List.mem_cons_of_mem _ hc))]

/-- C7 counterexample: the claim says `normalize` output never contains the
accented characters of the folding table, even for uppercase accented input
such as `"Á"`; but the source folds accents BEFORE lowercasing, so
`normalize("Á") = "á"`, which is in the table. -/
theorem C7_counterexample :
    ¬ (∀ s : Str, ∀ c ∈ normalize s, c ∉ accentChars) := fun h =>
  h (("Á").toList) 'á' (by decide) (by decide)

/-- C7 (amended): for every string `s`, `normalize s` has no leading or
trailing whitespace and is fully lowercase; and provided `s` contains no
uppercase accented form (`Á`,`É`,`Í`,`Ó`,`Ú`,`Ñ`,`Ü`), the output contains
none of the accented characters of the folding table.  (As stated the claim
fails: folding happens before lowercasing, so uppercase accented characters
survive as lowercase accented ones.) -/
theorem C7_normalize_props (s : Str) :
    pyStrip (normalize s) = normalize s ∧
    (normalize s).map pyLower = normalize s ∧
    ((∀ c ∈ s, c ∉ upperAccentChars) → ∀ c ∈ normalize s, c ∉ accentChars) := by
  refine ⟨?_, ?_, ?_⟩
  · rw [normalize_eq_pipeline]
    exact pyStrip_idem _
  · refine map_id_of_mem pyLower (normalize s) ?_
    intro c hc
    rw [normalize_eq_pipeline] at hc
    have hc2 := mem_pyStrip hc
    obtain ⟨d, _, rfl⟩ := List.mem_map.mp hc2
    exact pyLower_idem d
  · intro hupper c hc
    rw [normalize_eq_pipeline] at hc
    have hc2 := mem_pyStrip hc
    obtain ⟨d0, hd0, rfl⟩ := List.mem_map.mp hc2
    obtain ⟨d, hd, rfl⟩ := List.mem_map.mp hd0
    cases hf : replPairs.find? (fun p => p.1 = d) with
    | some q =>
      have hq : foldChar d = q.2 := by
        unfold foldChar
        rw [hf]
        rfl
      rw [hq]
      have hfact : ∀ r ∈ replPairs, pyLower r.2 ∉ accentChars := by decide
      exact hfact q (List.mem_of_find?_eq_some hf)
    | none =>
      have hd2 : foldChar d = d := by
        unfold foldChar
        rw [hf]
        rfl
      rw [hd2]
      cases hl : lowerPairs.find? (fun p => p.1 = d) with
      | some r =>
        have hr : pyLower d = r.2 := by
          unfold pyLower
          rw [hl]
          rfl
        rw [hr]
        intro hacc
        have hfact : ∀ r ∈ lowerPairs, r.2 ∈ accentChars → r.1 ∈ upperAccentChars := by
          decide
        have hr1 : r.1 = d := by simpa using List.find?_some hl
        exact hupper d hd (hr1 ▸ hfact r (List.mem_of_find?_eq_some hl) hacc)
      | none =>
        have hr : pyLower d = d := by
          unfold pyLower
          rw [hl]
          rfl
        rw [hr]
        intro hacc
        obtain ⟨q, hq, hq1⟩ := List.mem_map.mp hacc
        have := List.find?_eq_none.mp hf q hq
        simp at this
        exact this hq1

/-- C7 witness: a concrete input with no uppercase accented characters. -/
theorem C7_witness :
    ∀ c ∈ normalize (("  HoLa  ").toList), c ∉ accentChars :=
  (C7_normalize_props (("  HoLa  ").toList)).2.2 (by decide)

/-- C2: every history entry appended by the practice-prompt flow is a
`practiceTurn`, which carries neither an `ai` nor a `reply` field; its
dedup identity key is therefore `(normalize(your), "", lang)`, and two
app-written entries have equal keys exactly when their normalized answers
and languages agree - the `target` field plays no role. -/
theorem C2_history_key_from_empty_ai :
    (∀ now mem text item,
      (score_attempt now mem text item).conversation_history =
        mem.conversation_history ++
          [practiceTurn now item text (fuzzy_ratio text item.target)]) ∧
    (∀ now item text s,
      (practiceTurn now item text s).ai = none ∧
        (practiceTurn now item text s).reply = none) ∧
    (∀ L now item text s,
      histKey L (practiceTurn now item text s) = (normalize text, [], orS L [])) ∧
    (∀ L1 L2 n1 n2 i1 i2 t1 t2 s1 s2,
      histKey L1 (practiceTurn n1 i1 t1 s1) = histKey L2 (practiceTurn n2 i2 t2 s2) ↔
        (normalize t1 = normalize t2 ∧ orS L1 [] = orS L2 [])) := by
  have hkey : ∀ (L : Option Str) now item text s,
      histKey L (practiceTurn now item text s) = (normalize text, ([] : Str), orS L []) := by
    intro L now item text s
    unfold histKey
    have h1 : tYour (practiceTurn now item text s) = pyStrip text := by
      show pyStrip (orS (some text) (orS none [])) = pyStrip text
      rw [orS_none, orS_some_nil]
    have h2 : tAi (practiceTurn now item text s) = [] := rfl
    have h3 : (practiceTurn now item text s).lang = none := rfl
    rw [h1, h2, normalize_pyStrip, h3, orS_none]
    rfl
  refine ⟨fun now mem text item => score_attempt_hist now mem text item,
    fun now item text s => ⟨rfl, rfl⟩, hkey, ?_⟩
  intro L1 L2 n1 n2 i1 i2 t1 t2 s1 s2
  rw [hkey, hkey, Prod.mk.injEq, Prod.mk.injEq]
  constructor
  · rintro ⟨hA, -, hC⟩
    exact ⟨hA, hC⟩
  · rintro ⟨hA, hC⟩
    exact ⟨hA, rfl, hC⟩

/-!
Claim C4: recent-window and level update.
-/

/-- The user with level 3 and six consecutive correct answers. -/
def memUp : UserRec :=
  { name := none, lang := some esLang, level := 3,
    stats := { correct := 0, wrong := 0, recent := [1, 1, 1, 1, 1, 1] },
    custom_vocab := [], conversation_history := [] }

/-- The user with level 3 and six consecutive wrong answers. -/
def memDown : UserRec :=
  { name := none, lang := some esLang, level := 3,
    stats := { correct := 0, wrong := 0, recent := [0, 0, 0, 0, 0, 0] },
    custom_vocab := [], conversation_history := [] }

/-- C4: `score_attempt` appends `1` (correct) or `0` (incorrect) to
`stats.recent`, capped at the last 20; the level changes by at most one per
attempt and never leaves `[1,5]`; with `recent = [1,1,1,1,1,1]` and level 3
a correct attempt yields level 4, and with six zeros and level 3 an
incorrect attempt yields level 2. -/
theorem C4_level_adjust :
    (∀ now mem text item, 1 ≤ mem.level → mem.level ≤ 5 →
      (score_attempt now mem text item).stats.recent =
          lastN 20 (mem.stats.recent ++
            [if scoreThreshold ≤ fuzzy_ratio text item.target then (1 : Int) else 0]) ∧
        (score_attempt now mem text item).stats.recent.length ≤ 20 ∧
        ((score_attempt now mem text item).level = mem.level + 1 ∨
          (score_attempt now mem text item).level = mem.level - 1 ∨
          (score_attempt now mem text item).level = mem.level) ∧
        1 ≤ (score_attempt now mem text item).level ∧
        (score_attempt now mem text item).level ≤ 5) ∧
    (score_attempt sT memUp sHola itemHola).level = 4 ∧
    (score_attempt sT memDown sHola itemBonjour).level = 2 ∧
    (∀ now mem text item, (score_attempt now mem text item).level =
      levelAfter
        (recentAfter mem.stats.recent (scoreThreshold ≤ fuzzy_ratio text item.target))
        mem.level) ∧
    (∀ (r : List Int) (lvl : Int), levelAfter r lvl =
      if 6 ≤ r.length then
        if (8 / 10 : ℚ) ≤ (r.sum : ℚ) / (r.length : ℚ) ∧ lvl < 5 then lvl + 1
        else if ((r.sum : ℚ) / (r.length : ℚ) ≤ 5 / 10) ∧ 1 < lvl then lvl - 1
        else lvl
      else lvl) := by
  refine ⟨?_, ?_, ?_, score_attempt_level, levelAfter_eq⟩
  · intro now mem text item h1 h5
    rw [score_attempt_recent, score_attempt_level]
    refine ⟨rfl, ?_, ?_, ?_, ?_⟩
    · exact lastN_length_le 20 _
    · exact levelAfter_step _ _
    · exact (levelAfter_bounds _ _ h1 h5).1
    · exact (levelAfter_bounds _ _ h1 h5).2
  · rw [score_attempt_level, show itemHola.target = sHola from rfl, fuzzy_hola_hola]
    have hc : scoreThreshold ≤ (1 : ℚ) := by norm_num [scoreThreshold]
    have hrec : recentAfter memUp.stats.recent (scoreThreshold ≤ (1 : ℚ)) =
        [1, 1, 1, 1, 1, 1, 1] := by
      unfold recentAfter
      rw [if_pos hc]
      decide
    rw [hrec, levelAfter_eq]
    norm_num
    decide
  · rw [score_attempt_level, show itemBonjour.target = sBonjour from rfl,
      fuzzy_hola_bonjour]
    have hc : ¬ scoreThreshold ≤ (2 / 11 : ℚ) := by norm_num [scoreThreshold]
    have hrec : recentAfter memDown.stats.recent (scoreThreshold ≤ (2 / 11 : ℚ)) =
        [0, 0, 0, 0, 0, 0, 0] := by
      unfold recentAfter
      rw [if_neg hc]
      decide
    rw [hrec, levelAfter_eq]
    norm_num
    decide

/-- C4 witness: the general bound applied at a concrete user. -/
theorem C4_witness :
    (score_attempt sT memUp sHola itemHola).stats.recent =
        lastN 20 (memUp.stats.recent ++
          [if scoreThreshold ≤ fuzzy_ratio sHola itemHola.target then (1 : Int) else 0]) ∧
      (score_attempt sT memUp sHola itemHola).stats.recent.length ≤ 20 ∧
      ((score_attempt sT memUp sHola itemHola).level = memUp.level + 1 ∨
        (score_attempt sT memUp sHola itemHola).level = memUp.level - 1 ∨
        (score_attempt sT memUp sHola itemHola).level = memUp.level) ∧
      1 ≤ (score_attempt sT memUp sHola itemHola).level ∧
      (score_attempt sT memUp sHola itemHola).level ≤ 5 :=
  C4_level_adjust.1 sT memUp sHola itemHola (by decide) (by decide)

/-- C5: if two vocabulary entries of the same language list share an
identity key, then after dedup exactly one entry with that key survives,
namely the canonical rebuild of the first entry with that key in original
list order (`find?`). -/
theorem C5_first_occurrence_survives (now : Str) (v : List RawVocab)
    (e1 e2 : RawVocab) (h1 : e1 ∈ v) (h2 : e2 ∈ v)
    (hk : vocabKey e2 = vocabKey e1) :
    ∃ f, v.find? (fun e => decide (vocabKey e = vocabKey e1)) = some f ∧
      (dedupVocab now v).filter (fun e => decide (vocabKey e = vocabKey e1)) =
        [rebuildVocab now f] := by
  have hex : (v.find? (fun e => decide (vocabKey e = vocabKey e1))).isSome := by
    rw [List.find?_isSome]
    exact ⟨e1, h1, by simp⟩
  obtain ⟨f, hf⟩ := Option.isSome_iff_exists.mp hex
  refine ⟨f, hf, ?_⟩
  rw [dedupVocab, dedupVocabAux_filter_new now v [] _ (by simp), hf]
  rfl

/-- C5 witness: two concrete entries whose identity keys agree after
normalization. -/
theorem C5_witness :
    ∃ f, [vocabHola, vocabHolaPad].find?
        (fun e => decide (vocabKey e = vocabKey vocabHola)) = some f ∧
      (dedupVocab sT [vocabHola, vocabHolaPad]).filter
          (fun e => decide (vocabKey e = vocabKey vocabHola)) =
        [rebuildVocab sT f] :=
  C5_first_occurrence_survives sT [vocabHola, vocabHolaPad] vocabHola vocabHolaPad
    (by decide) (by decide) (by decide)

/-!
Claim C10: the shape of rebuilt vocabulary entries.
-/

/-- The reading of C10 as stated: the surviving entry's `level` is the
original entry's `level` with default 1 only when missing, and `last_used`
is the original value, filled only when missing. -/
def C10Stated : Prop :=
  ∀ (now : Str) (v : List RawVocab) (e : RawVocab), e ∈ dedupVocab now v →
    ∃ it ∈ v,
      e.native = some (pyStrip (orS it.native [])) ∧
      e.target = some (pyStrip (orS it.target (orS it.correct_answer []))) ∧
      e.topic = some (pyStrip (orS it.topic [])) ∧
      e.level = some (it.level.getD 1) ∧
      e.last_used = some (it.last_used.getD now) ∧
      e.correct_answer = none ∧ e.extra = []

/-- C10 counterexample: an entry with `level = 0` is rebuilt with
`level = 1` (Python `int(it.get("level") or 1)` treats 0 as falsy), and its
empty `last_used` is refilled, contradicting the claim's "defaulting ...
when missing" reading. -/
theorem C10_counterexample : ¬ C10Stated := by
  intro h
  obtain ⟨it, hmem, hshape⟩ :=
    h sT [vocabLevelZero] (rebuildVocab sT vocabLevelZero) (by decide)
  have : it = vocabLevelZero := List.mem_singleton.mp hmem
  subst this
  exact absurd hshape.2.2.2.1 (by decide)

/-- C10 (amended): every surviving entry is the canonical rebuild of some
original entry: exactly the fields `{native, target, topic, level,
last_used}` are populated (`correct_answer` and any extra fields are
dropped), the strings are whitespace-stripped, `target` falls back to
`correct_answer` when `target` is missing or empty, `level` defaults to 1
when missing OR zero, and `last_used` keeps a nonempty existing value and
is otherwise (missing or empty) filled with the current timestamp. -/
theorem C10_vocab_rebuild_shape (now : Str) (v : List RawVocab) (e : RawVocab)
    (he : e ∈ dedupVocab now v) :
    ∃ it ∈ v, e = rebuildVocab now it ∧
      e.native = some (vNative it) ∧ e.target = some (vTarget it) ∧
      e.topic = some (vTopic it) ∧ e.level = some (levelOf it) ∧
      e.last_used = some (orS it.last_used now) ∧
      e.correct_answer = none ∧ e.extra = [] ∧
      pyStrip (vNative it) = vNative it ∧
      pyStrip (vTarget it) = vTarget it ∧
      pyStrip (vTopic it) = vTopic it ∧
      (it.target = none → e.target = some (pyStrip (orS it.correct_answer []))) ∧
      (it.level = none ∨ it.level = some 0 → e.level = some 1) ∧
      (∀ lv, it.level = some lv → lv ≠ 0 → e.level = some lv) ∧
      (it.last_used = none ∨ it.last_used = some [] → e.last_used = some now) ∧
      (∀ lu, it.last_used = some lu → lu ≠ [] → e.last_used = some lu) := by
  obtain ⟨it, hm, rfl⟩ := dedupVocabAux_mem now v [] e he
  refine ⟨it, hm, rfl, rfl, rfl, rfl, rfl, rfl, rfl, rfl,
    pyStrip_idem _, pyStrip_idem _, pyStrip_idem _, ?_, ?_, ?_, ?_, ?_⟩
  · intro ht
    show some (vTarget it) = _
    unfold vTarget
    rw [ht, orS_none]
  · intro hl
    show some (levelOf it) = some 1
    unfold levelOf
    rcases hl with hl | hl <;> rw [hl] <;> simp
  · intro lv hl hne
    show some (levelOf it) = some lv
    unfold levelOf
    rw [hl]
    simp [hne]
  · intro hl
    show some (orS it.last_used now) = some now
    rcases hl with hl | hl <;> rw [hl]
    · rfl
    · show some (if ([] : Str) = [] then now else []) = some now
      simp
  · intro lu hl hne
    show some (orS it.last_used now) = some lu
    rw [hl]
    show some (if lu = [] then now else lu) = some lu
    simp [hne]

/-- C10 witness: the shape theorem applied at a concrete entry. -/
theorem C10_witness :
    ∃ it ∈ [vocabHolaPad], rebuildVocab sT vocabHolaPad = rebuildVocab sT it ∧
      (rebuildVocab sT vocabHolaPad).native = some (vNative it) ∧
      (rebuildVocab sT vocabHolaPad).target = some (vTarget it) ∧
      (rebuildVocab sT vocabHolaPad).topic = some (vTopic it) ∧
      (rebuildVocab sT vocabHolaPad).level = some (levelOf it) ∧
      (rebuildVocab sT vocabHolaPad).last_used = some (orS it.last_used sT) ∧
      (rebuildVocab sT vocabHolaPad).correct_answer = none ∧
      (rebuildVocab sT vocabHolaPad).extra = [] ∧
      pyStrip (vNative it) = vNative it ∧
      pyStrip (vTarget it) = vTarget it ∧
      pyStrip (vTopic it) = vTopic it ∧
      (it.target = none →
        (rebuildVocab sT vocabHolaPad).target = some (pyStrip (orS it.correct_answer []))) ∧
      (it.level = none ∨ it.level = some 0 →
        (rebuildVocab sT vocabHolaPad).level = some 1) ∧
      (∀ lv, it.level = some lv → lv ≠ 0 →
        (rebuildVocab sT vocabHolaPad).level = some lv) ∧
      (it.last_used = none ∨ it.last_used = some [] →
        (rebuildVocab sT vocabHolaPad).last_used = some sT) ∧
      (∀ lu, it.last_used = some lu → lu ≠ [] →
        (rebuildVocab sT vocabHolaPad).last_used = some lu) :=
  C10_vocab_rebuild_shape sT [vocabHolaPad] (rebuildVocab sT vocabHolaPad) (by decide)

/-!
Claims C1 and C3: invariants after save, and idempotence of dedup.
-/

/-- A store violating the claimed bounds: 21 recent stats entries, and two
history turns that differ only in their `ai` field. -/
def memCex : UserRec :=
  { name := some sU, lang := some esLang, level := 3,
    stats := { correct := 0, wrong := 0, recent := List.replicate 21 0 },
    custom_vocab := [], conversation_history := [turnAiX, turnAiY] }

def cexStore : Store := { users := [(sU, memCex)] }

/-- A well-behaved store for the witnesses. -/
def wMem : UserRec :=
  { name := some sU, lang := some esLang, level := 2,
    stats := { correct := 1, wrong := 0, recent := [1, 0] },
    custom_vocab := [(esLang, [vocabHola, vocabHolaPad])],
    conversation_history := [turnPlain] }

def wStore : Store := { users := [(sU, wMem)] }

/-- C1 counterexample: after `save` the user's `stats.recent` still has 21
entries (the source trims to the last 200, not 20), and the deduplicated
history contains two entries with the same identity key (their differing
`ai` fields fed the keys during dedup but are dropped from the output). -/
theorem C1_counterexample :
    ∃ p ∈ (save_global sT cexStore).users,
      20 < p.2.stats.recent.length ∧
        ¬ ((p.2.conversation_history.map (histKey p.2.lang)).Nodup) := by
  decide

/-- C1 (amended): in `save_global S` (i.e. `deduplicate_global S`), every
user's per-language vocabulary lists have pairwise-distinct identity keys,
the history has length at most 500, and `stats.recent` has length at most
200 (not 20 as claimed); moreover the history list has pairwise-distinct
identity keys whenever the user's original history entries carry no
`ai`/`reply`/`lang` fields (as all app-written entries do) - without that
restriction duplicate keys can survive, see the counterexample. -/
theorem C1_save_invariants (now : Str) (S : Store) :
    (∀ p ∈ (save_global now S).users,
        (∀ q ∈ p.2.custom_vocab, (q.2.map vocabKey).Nodup) ∧
        p.2.conversation_history.length ≤ 500 ∧
        p.2.stats.recent.length ≤ 200) ∧
    (∀ p ∈ S.users,
        (∀ t ∈ p.2.conversation_history, noAiFields t) →
        ((deduplicate_user now p.2).conversation_history.map (histKey p.2.lang)).Nodup) := by
  constructor
  · intro p hp
    simp only [save_global, deduplicate_global, List.mem_map] at hp
    obtain ⟨q, hq, rfl⟩ := hp
    refine ⟨?_, ?_, ?_⟩
    · intro r hr
      have hr2 : r ∈ (deduplicate_user now q.2).custom_vocab := hr
      rw [dedup_user_vocab] at hr2
      obtain ⟨r0, _, rfl⟩ := List.mem_map.mp hr2
      exact (dedupVocabAux_keys now r0.2 []).1
    · exact lastN_length_le 500 _
    · exact lastN_length_le 200 _
  · intro p hp hno
    rw [dedup_user_hist, map_lastN]
    exact ((dedupHistAux_keys now p.2.lang _ [] hno).1).sublist (lastN_sublist 500 _)

/-- C1 witness: the invariants at a concrete store. -/
theorem C1_witness :
    (∀ q ∈ (deduplicate_user sT wMem).custom_vocab, (q.2.map vocabKey).Nodup) ∧
    (deduplicate_user sT wMem).conversation_history.length ≤ 500 ∧
    (deduplicate_user sT wMem).stats.recent.length ≤ 200 ∧
    ((deduplicate_user sT wMem).conversation_history.map (histKey wMem.lang)).Nodup := by
  have h := C1_save_invariants sT wStore
  have h1 := h.1 (sU, deduplicate_user sT wMem) (by decide)
  have h2 := h.2 (sU, wMem) (by decide) (by decide)
  exact ⟨h1.1, h1.2.1, h1.2.2, h2⟩

/-- C3 counterexample: `deduplicate_store` is not idempotent.  Two history
turns share `your = "hi"` but differ in `ai`, so the first pass keeps both;
the rebuilt entries drop `ai`, so the second pass sees equal keys and drops
one. -/
theorem C3_counterexample :
    deduplicate_global sT (deduplicate_global sT cexStore) ≠
      deduplicate_global sT cexStore := by
  decide

/-- C3 (amended): `deduplicate_store` is idempotent on every store whose
history entries carry no `ai`, `reply` or `lang` fields - in particular on
all histories the app itself writes.  (Unrestricted idempotence fails, see
the counterexample.) -/
theorem C3_dedup_idempotent (now : Str) (S : Store)
    (h : ∀ p ∈ S.users, ∀ t ∈ p.2.conversation_history, noAiFields t) :
    deduplicate_global now (deduplicate_global now S) = deduplicate_global now S :=
  deduplicate_global_idem now S h

/-- C3 witness: idempotence at a concrete store. -/
theorem C3_witness :
    deduplicate_global sT (deduplicate_global sT wStore) =
      deduplicate_global sT wStore :=
  C3_dedup_idempotent sT wStore (by decide)

/-!
Claim C8: the admin merge handler.
-/

theorem merge_user_name (ex v : UserRec) : (merge_user ex v).name = ex.name := rfl

/-- C8: merging an uploaded users mapping into the store: a username absent
from the store is inserted wholesale; for a present username, incoming
history entries and per-language vocabulary entries are appended onto the
existing record's lists (pure concatenation, no dedup), and the existing
record's `name`, `lang`, `level` and `stats` are unchanged. -/
theorem C8_merge_append (store inc : List (Str × UserRec)) (k : Str)
    (hnd : (inc.map Prod.fst).Nodup) :
    (alGet store k = none → alGet (merge_store store inc) k = alGet inc k) ∧
    (∀ ex vrec, alGet store k = some ex → alGet inc k = some vrec →
      (vrec.custom_vocab.map Prod.fst).Nodup →
      ∃ ex', alGet (merge_store store inc) k = some ex' ∧
        ex'.name = ex.name ∧ ex'.lang = ex.lang ∧ ex'.level = ex.level ∧
        ex'.stats = ex.stats ∧
        ex'.conversation_history =
          ex.conversation_history ++ vrec.conversation_history ∧
        ∀ lang, (alGet ex'.custom_vocab lang).getD [] =
          (alGet ex.custom_vocab lang).getD [] ++
            (alGet vrec.custom_vocab lang).getD []) := by
  constructor
  · intro hnone
    rw [alGet_merge_store inc store k hnd]
    cases hi : alGet inc k with
    | some v => rw [hnone]
    | none => rw [hnone]
  · intro ex vrec hex hinc hvnd
    refine ⟨merge_user ex vrec, ?_, rfl, rfl, rfl, rfl, rfl, ?_⟩
    · rw [alGet_merge_store inc store k hnd, hinc, hex]
    · intro lang
      show (alGet (vrec.custom_vocab.foldl (fun m p => vocabExtend m p.1 p.2)
          ex.custom_vocab) lang).getD [] = _
      rw [alGet_mergeVocabFold vrec.custom_vocab ex.custom_vocab lang hvnd]
      cases hv : alGet vrec.custom_vocab lang with
      | some vv => simp
      | none => simp

/-- Concrete records for the C8 witness. -/
def exRec : UserRec :=
  { name := some sU, lang := some esLang, level := 2,
    stats := { correct := 1, wrong := 2, recent := [1] },
    custom_vocab := [(esLang, [vocabHola])],
    conversation_history := [turnPlain] }

def incRec : UserRec :=
  { name := none, lang := some sFr, level := 4, stats := emptyStats,
    custom_vocab := [(esLang, [vocabHolaPad]), (sFr, [vocabLevelZero])],
    conversation_history := [turnAiX] }

def newRec : UserRec :=
  { name := some sB, lang := some sFr, level := 1, stats := emptyStats,
    custom_vocab := [], conversation_history := [] }

def mergeStoreW : List (Str × UserRec) := [(sU, exRec)]

def mergeIncW : List (Str × UserRec) := [(sU, incRec), (sB, newRec)]

/-- C8 witness: both merge cases at a concrete store. -/
theorem C8_witness :
    alGet (merge_store mergeStoreW mergeIncW) sB = alGet mergeIncW sB ∧
    (∃ ex', alGet (merge_store mergeStoreW mergeIncW) sU = some ex' ∧
      ex'.name = exRec.name ∧ ex'.lang = exRec.lang ∧ ex'.level = exRec.level ∧
      ex'.stats = exRec.stats ∧
      ex'.conversation_history =
        exRec.conversation_history ++ incRec.conversation_history ∧
      ∀ lang, (alGet ex'.custom_vocab lang).getD [] =
        (alGet exRec.custom_vocab lang).getD [] ++
          (alGet incRec.custom_vocab lang).getD []) :=
  ⟨(C8_merge_append mergeStoreW mergeIncW sB (by decide)).1 (by decide),
   (C8_merge_append mergeStoreW mergeIncW sU (by decide)).2 exRec incRec
     (by decide) (by decide) (by decide)⟩

end AiFriend
